import Mathlib

/-!
Shallow embedding of `MaskClipHead`
(src/mmseg/models/decode_heads/maskclip_head.py).

Tensors are total functions over `Fin`-indexed coordinates with real
entries.  The spatial H×W grid is flattened to a single position index
`Fin P` (with `P = H*W`); every modelled operation either acts pointwise
in the spatial coordinates or, like the voting stage, first flattens them
itself (`view(N, C, -1)`), so the flattening is a bijective reshape that
loses nothing.  Python-level failures (an `assert` firing, an
`IndexError` from out-of-range tensor indexing) are modelled as `none`.
Channel counts that change along the pipeline (background synthesis
concatenates a channel) are carried by the dependent record `RTensor`.
-/

namespace MaskClip

noncomputable section

/-- A logit map whose channel count is data: batch `N`, `channels` class
channels, `P` flattened spatial positions. -/
structure RTensor (N P : ℕ) where
  channels : ℕ
  data : Fin N → Fin channels → Fin P → ℝ

/-- A nonempty `Fin` universe, used for the `max` reductions
(`.max(dim=...)`) of the source, which PyTorch only defines on nonempty
dimensions. -/
def finUnivNE {m : ℕ} [NeZero m] : (Finset.univ : Finset (Fin m)).Nonempty :=
  ⟨⟨0, Nat.pos_of_ne_zero (NeZero.ne m)⟩, Finset.mem_univ _⟩

/-- Line 135: `cls_pred = cls_token @ self.text_embeddings.t()`. -/
def clsPred {N C Cc : ℕ} (emb : Fin C → Fin Cc → ℝ) (tok : Fin N → Fin Cc → ℝ) :
    Fin N → Fin C → ℝ :=
  fun n t => ∑ ch, tok n ch * emb t ch

/-- Index of a largest value of `f` on the list (earliest index on ties),
the selection primitive underlying `torch.topk`. -/
def argmaxList {C : ℕ} (f : Fin C → ℝ) : List (Fin C) → Option (Fin C)
  | [] => none
  | i :: is =>
    match argmaxList f is with
    | none => some i
    | some j => if f i < f j then some j else some i

/-- Greedy extraction of the `k` largest entries (indices, in descending
value order): the `values.topk(k)` index tensor of line 136. -/
def topkAux {C : ℕ} (f : Fin C → ℝ) : ℕ → List (Fin C) → List (Fin C)
  | 0, _ => []
  | k + 1, l =>
    match argmaxList f l with
    | none => []
    | some i => i :: topkAux f k (l.erase i)

/-- Line 136: `_, selected_cls = cls_pred.topk(self.topk_text, dim=1)`. -/
def topkIdx {C : ℕ} (k : ℕ) (f : Fin C → ℝ) : List (Fin C) :=
  topkAux f k (List.finRange C)

/-- The multiset of integer entries of the expanded `selected_cls` tensor
(line 138): for every sample, that sample's top-k category indices.  The
spatial expansion only repeats these values. -/
def selectedIdx {N C Cc : ℕ} (k : ℕ) (emb : Fin C → Fin Cc → ℝ)
    (tok : Fin N → Fin Cc → ℝ) : List ℕ :=
  ((List.finRange N).map fun n => (topkIdx k (clsPred emb tok n)).map Fin.val).flatten

/-- Lines 137-141.  `zeros[selected_cls] = output[selected_cls]` indexes
with an *integer* tensor, which PyTorch applies to dimension 0 (the batch
dimension): it raises `IndexError` when some selected category index is
`≥ N` (modelled as `none`), and otherwise copies whole batch rows `v`
(for `v` a value of `selected_cls`) from `output` into the `-100`-filled
`zeros`. -/
def topkGate {N C P Cc : ℕ} (k : ℕ) (emb : Fin C → Fin Cc → ℝ)
    (tok : Fin N → Fin Cc → ℝ) (out : Fin N → Fin C → Fin P → ℝ) :
    Option (Fin N → Fin C → Fin P → ℝ) :=
  if ∀ v ∈ selectedIdx k emb tok, v < N then
    some fun b c p => if (b : ℕ) ∈ selectedIdx k emb tok then out b c p else -100
  else none

/-- `F.softmax(output * 100, dim=1)` (lines 144, 151 and 194): the
sharpened softmax over the channel dimension. -/
def sharpSoftmax {N C P : ℕ} (out : Fin N → Fin C → Fin P → ℝ) :
    Fin N → Fin C → Fin P → ℝ :=
  fun n c p => Real.exp (out n c p * 100) / ∑ c', Real.exp (out n c' p * 100)

/-- Line 145: `_output.view(N, C, -1).max(dim=-1)[0]`, the per-sample,
per-channel maximum over all spatial positions. -/
def maxSpatial {N C P : ℕ} [NeZero P] (x : Fin N → Fin C → Fin P → ℝ)
    (n : Fin N) (c : Fin C) : ℝ :=
  Finset.univ.sup' finUnivNE fun p => x n c p

/-- Lines 142-147: channels whose maximum sharpened-softmax confidence
over all positions is below `cls_thresh` are overwritten in place with
`-100` at every position. -/
def confGate {N C P : ℕ} [NeZero P] (clsThresh : ℝ)
    (out : Fin N → Fin C → Fin P → ℝ) : Fin N → Fin C → Fin P → ℝ :=
  fun n c p =>
    if maxSpatial (sharpSoftmax out) n c < clsThresh then -100 else out n c p

/-- Lines 133-147: the gating part of `refine_output`.  `topk_text > 0`
is checked first; the confidence branch is an `elif`.  The `assert` at
line 134 (no `cls_token` available) is modelled as `none`. -/
def gateStage {N C P Cc : ℕ} [NeZero P] (topkText : ℕ) (clsThresh : ℝ)
    (emb : Fin C → Fin Cc → ℝ) (clsToken : Option (Fin N → Fin Cc → ℝ))
    (out : Fin N → Fin C → Fin P → ℝ) : Option (Fin N → Fin C → Fin P → ℝ) :=
  if 0 < topkText then
    match clsToken with
    | none => none
    | some tok => topkGate topkText emb tok out
  else if 0 < clsThresh then some (confGate clsThresh out) else some out

/-- Line 159: `k = F.normalize(k, p=2)`.  `k` has shape (N, H*W, C), and
`F.normalize` defaults to `dim=1` (the position dimension) and
`eps=1e-12`: each entry is divided by the clamped L2 norm taken over the
positions of its (sample, channel) slice. -/
def normalizeKeys {N P Ck : ℕ} (k : Fin N → Fin P → Fin Ck → ℝ) :
    Fin N → Fin P → Fin Ck → ℝ :=
  fun n p c => k n p c / max (Real.sqrt (∑ q, k n q c ^ 2)) (1 / 10 ^ 12)

/-- Line 160: `attn = k @ k.transpose(-2, -1)`, the pairwise affinity
between spatial positions of a sample. -/
def affinity {N P Ck : ℕ} (k : Fin N → Fin P → Fin Ck → ℝ) :
    Fin N → Fin P → Fin P → ℝ :=
  fun n p q => ∑ c, normalizeKeys k n p c * normalizeKeys k n q c

/-- Line 182: `output.max(dim=-1, keepdim=True)[0]` on the transposed
(N, H*W, C) layout, i.e. each position's maximum over the class
dimension. -/
def maxClass {N P C : ℕ} [NeZero C] (o : Fin N → Fin P → Fin C → ℝ)
    (n : Fin N) (p : Fin P) : ℝ :=
  Finset.univ.sup' finUnivNE fun c => o n p c

/-- Lines 180 and 186: `attn @ output`, propagating each position's class
distribution by the affinity-weighted average of all positions. -/
def voteAvg {N P C : ℕ} (attn : Fin N → Fin P → Fin P → ℝ)
    (o : Fin N → Fin P → Fin C → ℝ) : Fin N → Fin P → Fin C → ℝ :=
  fun n p c => ∑ q, attn n p q * o n q c

/-- Lines 180-184: one voting iteration of the `len(self.vote_thresh)`
branch, overwriting only the positions whose pre-vote maximum confidence
is below the iteration's threshold. -/
def voteStepMasked {N P C : ℕ} [NeZero C] (attn : Fin N → Fin P → Fin P → ℝ)
    (t : ℝ) (o : Fin N → Fin P → Fin C → ℝ) : Fin N → Fin P → Fin C → ℝ :=
  fun n p c => if maxClass o n p < t then voteAvg attn o n p c else o n p c

/-- Lines 162-186: `for i in range(self.num_vote)`, with the iteration
indices supplied as a list.  A nonempty `vote_thresh` list selects the
masked partial update and reads `vote_thresh[i]` (an out-of-range read is
Python's `IndexError`, modelled as `none`); an empty list selects the
unconditional overwrite `output = attn @ output`. -/
def voteLoop {N P C : ℕ} [NeZero C] (attn : Fin N → Fin P → Fin P → ℝ)
    (voteThresh : List ℝ) :
    List ℕ → (Fin N → Fin P → Fin C → ℝ) → Option (Fin N → Fin P → Fin C → ℝ)
  | [], o => some o
  | i :: is, o =>
    if voteThresh.isEmpty then voteLoop attn voteThresh is (voteAvg attn o)
    else
      match voteThresh[i]? with
      | none => none
      | some t => voteLoop attn voteThresh is (voteStepMasked attn t o)

/-- Lines 149-187: the spatial-affinity voting stage.  It runs only when
a key tensor is available and `num_vote > 0`; it first converts the
logits to the sharpened softmax distribution (`output2logits` is still
false at line 150 on every path), works on the transposed (N, H*W, C)
layout, and transposes back at line 187. -/
def voteStage {N C P Ck : ℕ} [NeZero C] (numVote : ℕ) (voteThresh : List ℝ)
    (k : Option (Fin N → Fin P → Fin Ck → ℝ))
    (out : Fin N → Fin C → Fin P → ℝ) : Option (Fin N → Fin C → Fin P → ℝ) :=
  match k with
  | none => some out
  | some kt =>
    if numVote = 0 then some out
    else
      match voteLoop (affinity kt) voteThresh (List.range numVote)
          (fun n p c => sharpSoftmax out n c p) with
      | none => none
      | some o' => some fun n c p => o' n p c

/-- Line 191: `torch.max(output[:, self.num_classes:], dim=1)`, the
pointwise maximum over the surplus category channels (nonempty because
`num_classes < C` in the branch that uses it). -/
def maxExtra {N C P : ℕ} (nc : ℕ) (h : nc < C)
    (out : Fin N → Fin C → Fin P → ℝ) (n : Fin N) (p : Fin P) : ℝ :=
  (Finset.univ.filter fun c : Fin C => nc ≤ (c : ℕ)).sup'
    ⟨⟨nc, h⟩, by simp⟩ fun c => out n c p

/-- Line 199 in the surplus-category case:
`torch.cat([bg_output, output[:, :self.num_classes]], dim=1)` — channel 0
is the surplus maximum, channels 1..num_classes are the first
`num_classes` original channels. -/
def bgConcat {N C P : ℕ} (nc : ℕ) (h : nc < C)
    (out : Fin N → Fin C → Fin P → ℝ) : Fin N → Fin (1 + nc) → Fin P → ℝ :=
  fun n c p =>
    if hc : (c : ℕ) = 0 then maxExtra nc h out n p
    else out n ⟨(c : ℕ) - 1, by have := c.isLt; omega⟩ p

/-- Lines 189-199: background synthesis.  When `text_categories` (the
channel count `C`) exceeds `num_classes`, the maximum over the surplus
channels is prepended as channel 0 in front of the first `num_classes`
channels; otherwise, when `bg_thresh > 0`, a constant background channel
is prepended (after converting to the sharpened softmax distribution if
the voting stage has not already done so — the `converted` flag is
`output2logits`).  `min nc C` reflects Python's clamping slice
`output[:, :self.num_classes]`. -/
def bgStage {N C P : ℕ} (nc : ℕ) (bgThresh : ℝ) (converted : Bool)
    (out : Fin N → Fin C → Fin P → ℝ) : RTensor N P :=
  if h : nc < C then ⟨1 + nc, bgConcat nc h out⟩
  else if 0 < bgThresh then
    ⟨1 + min nc C, fun n c p =>
      if hc : (c : ℕ) = 0 then bgThresh
      else
        (if converted then out else sharpSoftmax out) n
          ⟨(c : ℕ) - 1, by
            have h1 := c.isLt
            have h2 : min nc C ≤ C := Nat.min_le_right nc C
            omega⟩ p⟩
  else ⟨C, out⟩

/-- Lines 130-201: `refine_output(self, output, k, cls_token)` as the
composition of the gating stage, the voting stage and background
synthesis.  `output2logits` is true at line 193 exactly when the voting
stage ran (a key tensor was given and `num_vote > 0`). -/
def refine_output {N C P Cc Ck : ℕ} [NeZero C] [NeZero P]
    (nc : ℕ) (bgThresh : ℝ) (numVote : ℕ) (voteThresh : List ℝ)
    (topkText : ℕ) (clsThresh : ℝ) (emb : Fin C → Fin Cc → ℝ)
    (out : Fin N → Fin C → Fin P → ℝ)
    (k : Option (Fin N → Fin P → Fin Ck → ℝ))
    (clsToken : Option (Fin N → Fin Cc → ℝ)) : Option (RTensor N P) :=
  match gateStage topkText clsThresh emb clsToken out with
  | none => none
  | some o1 =>
    match voteStage numVote voteThresh k o1 with
    | none => none
    | some o2 => some (bgStage nc bgThresh (k.isSome && !(numVote == 0)) o2)

/-- Line 125: `feat.norm(dim=1, keepdim=True)`, the per-pixel L2 norm of
the channel vector. -/
def l2normChan {N C P : ℕ} (feat : Fin N → Fin C → Fin P → ℝ)
    (n : Fin N) (p : Fin P) : ℝ :=
  Real.sqrt (∑ c, feat n c p ^ 2)

/-- Line 125: `feat = feat / feat.norm(dim=1, keepdim=True)` — the
division is unguarded. -/
def divByNorm {N C P : ℕ} (feat : Fin N → Fin C → Fin P → ℝ) :
    Fin N → Fin C → Fin P → ℝ :=
  fun n c p => feat n c p / l2normChan feat n p

/-- Line 126: `F.conv2d(feat, w[:, :, None, None])`, a 1×1 convolution,
i.e. a per-pixel linear map given by the `Cout × Cin` filter bank. -/
def conv1x1 {N Ci Co P : ℕ} (x : Fin N → Fin Ci → Fin P → ℝ)
    (w : Fin Co → Fin Ci → ℝ) : Fin N → Fin Co → Fin P → ℝ :=
  fun n o p => ∑ c, w o c * x n c p

/-- Lines 124-128: `cls_seg` normalizes the feature along the channel
axis and convolves with the text-embedding table used as a
(categories × channels × 1 × 1) filter bank. -/
def cls_seg {N Cc T P : ℕ} (emb : Fin T → Fin Cc → ℝ)
    (feat : Fin N → Fin Cc → Fin P → ℝ) : Fin N → Fin T → Fin P → ℝ :=
  conv1x1 (divByNorm feat) emb

/-- Lines 118-122 of `forward`: classify the projected feature and, only
when the module is not in training mode, refine the result.  The visual
projection (lines 72-117) produces `feat`, `k` and `cls_token` upstream
of this point and is not consulted by these lines. -/
def forward {N C P Cc Ck : ℕ} [NeZero C] [NeZero P] (training : Bool)
    (nc : ℕ) (bgThresh : ℝ) (numVote : ℕ) (voteThresh : List ℝ)
    (topkText : ℕ) (clsThresh : ℝ) (emb : Fin C → Fin Cc → ℝ)
    (feat : Fin N → Fin Cc → Fin P → ℝ)
    (k : Option (Fin N → Fin P → Fin Ck → ℝ))
    (clsToken : Option (Fin N → Fin Cc → ℝ)) : Option (RTensor N P) :=
  if training then some ⟨C, cls_seg emb feat⟩
  else
    refine_output nc bgThresh numVote voteThresh topkText clsThresh emb
      (cls_seg emb feat) k clsToken

/-- Lines 39-41 of `__init__`: a scalar `vote_thresh` is expanded to a
list of length `num_vote`; a list is kept as given. -/
def expandVoteThresh (arg : ℝ ⊕ List ℝ) (numVote : ℕ) : List ℝ :=
  match arg with
  | Sum.inl x => List.replicate numVote x
  | Sum.inr l => l

/-- Line 68: `state_dict[key][:, :, None, None]` on a tensor of the given
shape (defined for 2 or more dimensions): two singleton dimensions are
inserted after the first two. -/
def unsqueeze2 (shape : List ℕ) : List ℕ :=
  shape.take 2 ++ 1 :: 1 :: shape.drop 2

/-- Whether the pattern occurs at the head of the text. -/
def matchesAt : List Char → List Char → Bool
  | [], _ => true
  | _ :: _, [] => false
  | a :: as, b :: bs => a == b && matchesAt as bs

/-- Whether the pattern occurs anywhere in the text. -/
def hasSub (pat : List Char) : List Char → Bool
  | [] => pat.isEmpty
  | s :: rest => matchesAt pat (s :: rest) || hasSub pat rest

/-- Line 67: Python's `'weight' in key`. -/
def keyHasWeight (key : String) : Bool :=
  hasSub "weight".toList key.toList

/-- Lines 66-68 of `load_visual_projs`, at the level of tensor shapes: a
state dict is a list of named entries, and every entry whose key contains
`weight` gets `[:, :, None, None]` applied, unconditionally. -/
def transformStateDict (sd : List (String × List ℕ)) : List (String × List ℕ) :=
  sd.map fun e => if keyHasWeight e.1 then (e.1, unsqueeze2 e.2) else e

/-- Line 69: `load_state_dict` succeeds exactly when the transformed
entries match the target module's parameter shapes. -/
def loadOk (target sd : List (String × List ℕ)) : Prop :=
  transformStateDict sd = target

/-- Concrete one-element embedding table, used by witnesses. -/
def exEmb : Fin 1 → Fin 1 → ℝ := fun _ _ => 1

/-- Concrete one-pixel projected feature map, used by witnesses. -/
def exFeat : Fin 1 → Fin 1 → Fin 1 → ℝ := fun _ _ _ => 1

/-- Concrete all-zero one-channel logit map, used by witnesses. -/
def exOut : Fin 1 → Fin 1 → Fin 1 → ℝ := fun _ _ _ => 0

/-- Concrete three-channel logit map (values 0, 1, 2), used by
witnesses. -/
def exOut3 : Fin 1 → Fin 3 → Fin 1 → ℝ := fun _ c _ => (c : ℕ)

/-- Concrete three-category embedding table, used by witnesses. -/
def exEmb3 : Fin 3 → Fin 1 → ℝ := fun _ _ => 1

/-- Concrete projected class token, used by witnesses. -/
def exTok : Fin 1 → Fin 1 → ℝ := fun _ _ => 1

/-- Concrete flattened key tensor, used by witnesses. -/
def exKey : Fin 1 → Fin 1 → Fin 1 → ℝ := fun _ _ _ => 1

end

/-! Theorems.  Each claim from the specification is settled by one named
theorem below; shared helper lemmas precede them. -/

theorem argmaxList_mem {C : ℕ} (f : Fin C → ℝ) {l : List (Fin C)} {j : Fin C}
    (h : argmaxList f l = some j) : j ∈ l := by
  induction l with
  | nil => simp [argmaxList] at h
  | cons i is ih =>
    simp only [argmaxList] at h
    cases hrec : argmaxList f is with
    | none =>
      rw [hrec] at h
      simp only [Option.some.injEq] at h
      subst h
      exact List.mem_cons_self i is
    | some j' =>
      simp only [hrec] at h
      by_cases hf : f i < f j'
      · rw [if_pos hf] at h
        simp only [Option.some.injEq] at h
        subst h
        exact List.mem_cons_of_mem i (ih hrec)
      · rw [if_neg hf] at h
        simp only [Option.some.injEq] at h
        subst h
        exact List.mem_cons_self i is

theorem argmaxList_isSome {C : ℕ} (f : Fin C → ℝ) (l : List (Fin C))
    (h : l ≠ []) : ∃ j, argmaxList f l = some j := by
  cases l with
  | nil => exact absurd rfl h
  | cons i is =>
    cases hrec : argmaxList f is with
    | none => exact ⟨i, by simp only [argmaxList, hrec]⟩
    | some j =>
      by_cases hf : f i < f j
      · exact ⟨j, by simp only [argmaxList, hrec]; rw [if_pos hf]⟩
      · exact ⟨i, by simp only [argmaxList, hrec]; rw [if_neg hf]⟩

theorem topkAux_succ {C : ℕ} (f : Fin C → ℝ) (k : ℕ) (l : List (Fin C))
    {i : Fin C} (h : argmaxList f l = some i) :
    topkAux f (k + 1) l = i :: topkAux f k (l.erase i) := by
  simp only [topkAux, h]

/-- C2 counterexample: with the module in training mode, the forward path
returns an output (`some`), it does not raise. -/
theorem training_forward_returns_some :
    (forward true 1 0 0 [] 0 0 exEmb exFeat
        (none : Option (Fin 1 → Fin 1 → Fin 1 → ℝ)) none).isSome = true := rfl

/-- C2 (amended): in training mode the forward path of the head skips
refinement and returns the raw classifier logits; it never raises (the
`forward_train` override that would raise is commented out, lines
203-204). -/
theorem training_forward_skips_refinement {N C P Cc Ck : ℕ} [NeZero C]
    [NeZero P] (nc : ℕ) (bg : ℝ) (nv : ℕ) (vt : List ℝ) (tk : ℕ) (ct : ℝ)
    (emb : Fin C → Fin Cc → ℝ) (feat : Fin N → Fin Cc → Fin P → ℝ)
    (k : Option (Fin N → Fin P → Fin Ck → ℝ))
    (tok : Option (Fin N → Fin Cc → ℝ)) :
    forward true nc bg nv vt tk ct emb feat k tok
      = some ⟨C, cls_seg emb feat⟩ := rfl

theorem training_forward_skips_refinement_witness :
    forward true 1 0 0 [] 0 0 exEmb exFeat
        (none : Option (Fin 1 → Fin 1 → Fin 1 → ℝ)) none
      = some ⟨1, cls_seg exEmb exFeat⟩ :=
  training_forward_skips_refinement 1 0 0 [] 0 0 exEmb exFeat none none

/-- C3 counterexample: a pre-expanded 4D stored weight is unsqueezed to
six dimensions by `load_visual_projs`, so loading it against the 4D
convolution parameter fails, contradicting the claim that 4D weights are
left with four dimensions. -/
theorem load_visual_projs_4d_weight_mismatch :
    transformStateDict [("weight", [2, 3, 1, 1])]
        = [("weight", [2, 3, 1, 1, 1, 1])] ∧
    ¬ loadOk [("weight", [2, 3, 1, 1])] [("weight", [2, 3, 1, 1])] := by
  constructor
  · rfl
  · intro h
    unfold loadOk at h
    exact absurd h (by decide)

/-- C3 (amended): `load_visual_projs` appends two trailing singleton
dimensions to every stored entry whose key contains `weight`,
unconditionally: a 2D matrix becomes the required 4D convolution weight
and loads successfully, while a pre-expanded 4D weight becomes 6D (so its
load fails with a shape mismatch, as the counterexample shows). -/
theorem load_visual_projs_unconditional_unsqueeze :
    (∀ o i : ℕ, unsqueeze2 [o, i] = [o, i, 1, 1]) ∧
    (∀ s : List ℕ, s.length = 4 → (unsqueeze2 s).length = 6) ∧
    (∀ o i : ℕ, loadOk [("weight", [o, i, 1, 1])] [("weight", [o, i])]) := by
  refine ⟨fun o i => rfl, fun s hs => ?_, fun o i => rfl⟩
  simp [unsqueeze2, hs]

/-- C5: with `topk_text = 0` and `cls_thresh > 0`, the gating stage is
the confidence gate: every channel whose per-sample maximum
sharpened-softmax confidence over all spatial positions is below the
threshold becomes `-100` at every position, and every channel at or above
the threshold is unchanged. -/
theorem cls_thresh_gating_suppresses_low_conf {N C P Cc : ℕ} [NeZero P]
    (t : ℝ) (ht : 0 < t) (emb : Fin C → Fin Cc → ℝ)
    (tok : Option (Fin N → Fin Cc → ℝ)) (out : Fin N → Fin C → Fin P → ℝ) :
    gateStage 0 t emb tok out = some (confGate t out) ∧
    ∀ (n : Fin N) (c : Fin C),
      (maxSpatial (sharpSoftmax out) n c < t →
        ∀ p, confGate t out n c p = -100) ∧
      (t ≤ maxSpatial (sharpSoftmax out) n c →
        ∀ p, confGate t out n c p = out n c p) := by
  refine ⟨by simp [gateStage, ht], fun n c => ⟨fun h p => ?_, fun h p => ?_⟩⟩
  · simp [confGate, h]
  · simp [confGate, not_lt.mpr h]

theorem cls_thresh_gating_suppresses_low_conf_witness :
    gateStage 0 1 exEmb (none : Option (Fin 1 → Fin 1 → ℝ)) exOut
        = some (confGate 1 exOut) ∧
    ∀ (n : Fin 1) (c : Fin 1),
      (maxSpatial (sharpSoftmax exOut) n c < 1 →
        ∀ p, confGate 1 exOut n c p = -100) ∧
      (1 ≤ maxSpatial (sharpSoftmax exOut) n c →
        ∀ p, confGate 1 exOut n c p = exOut n c p) :=
  cls_thresh_gating_suppresses_low_conf 1 one_pos exEmb none exOut

/-- C6: when `topk_text > 0`, top-k gating runs (requiring the class
token) whatever `cls_thresh` is, and the result does not depend on
`cls_thresh` at all — confidence gating never runs alongside it, because
the source checks `topk_text > 0` first and the confidence branch is an
`elif`. -/
theorem gating_precedence_topk_first {N C P Cc : ℕ} [NeZero P]
    (tk : ℕ) (htk : 0 < tk) (t : ℝ) (emb : Fin C → Fin Cc → ℝ)
    (tok : Option (Fin N → Fin Cc → ℝ)) (out : Fin N → Fin C → Fin P → ℝ) :
    gateStage tk t emb tok out
      = (match tok with
         | none => none
         | some tok => topkGate tk emb tok out) ∧
    (∀ t' : ℝ, gateStage tk t' emb tok out = gateStage tk t emb tok out) := by
  constructor
  · simp only [gateStage]
    rw [if_pos htk]
  · intro t'
    simp only [gateStage]
    rw [if_pos htk, if_pos htk]

theorem gating_precedence_topk_first_witness :
    gateStage 1 1 exEmb (some exTok) exOut = topkGate 1 exEmb exTok exOut ∧
    (∀ t' : ℝ, gateStage 1 t' exEmb (some exTok) exOut
      = gateStage 1 1 exEmb (some exTok) exOut) :=
  gating_precedence_topk_first 1 one_pos 1 exEmb (some exTok) exOut

/-- C7: with `num_vote = 0` the voting stage is the identity on the logit
map, whether or not a key tensor is available. -/
theorem vote_stage_noop_when_num_vote_zero {N C P Ck : ℕ} [NeZero C]
    (vt : List ℝ) (k : Option (Fin N → Fin P → Fin Ck → ℝ))
    (out : Fin N → Fin C → Fin P → ℝ) :
    voteStage 0 vt k out = some out := by
  cases k <;> rfl

theorem vote_stage_noop_when_num_vote_zero_witness :
    voteStage 0 [] (none : Option (Fin 1 → Fin 1 → Fin 1 → ℝ)) exOut
      = some exOut :=
  vote_stage_noop_when_num_vote_zero [] none exOut

/-- C8: `cls_seg` computes, at every pixel, the inner product of the
L2-normalized (channel-axis) feature vector with each row of the text
embedding table; the channel count of the result is `text_categories` by
the type of `cls_seg`. -/
theorem cls_seg_normalized_inner_product {N Cc T P : ℕ}
    (emb : Fin T → Fin Cc → ℝ) (feat : Fin N → Fin Cc → Fin P → ℝ)
    (n : Fin N) (t : Fin T) (p : Fin P) :
    cls_seg emb feat n t p
      = (∑ c, feat n c p * emb t c) / Real.sqrt (∑ c, feat n c p ^ 2) := by
  unfold cls_seg conv1x1 divByNorm l2normChan
  rw [Finset.sum_div]
  exact Finset.sum_congr rfl fun c _ => by ring

/-- C9: the divisor of the unguarded per-pixel normalization in `cls_seg`
vanishes exactly on an all-zero channel vector (where the Python code
divides by zero, producing NaN logits); on such a pixel the model's
division-by-zero convention collapses every category logit. -/
theorem cls_seg_norm_zero_iff_zero_pixel {N Cc P : ℕ}
    (feat : Fin N → Fin Cc → Fin P → ℝ) (n : Fin N) (p : Fin P) :
    (l2normChan feat n p = 0 ↔ ∀ c, feat n c p = 0) ∧
    ((∀ c, feat n c p = 0) → ∀ {T : ℕ} (emb : Fin T → Fin Cc → ℝ)
      (t : Fin T), cls_seg emb feat n t p = 0) := by
  constructor
  · rw [l2normChan, Real.sqrt_eq_zero']
    constructor
    · intro h c
      have hsum : ∑ c, feat n c p ^ 2 = 0 :=
        le_antisymm h (Finset.sum_nonneg fun c _ => sq_nonneg _)
      have := (Finset.sum_eq_zero_iff_of_nonneg
        (fun c _ => sq_nonneg (feat n c p))).mp hsum c (Finset.mem_univ c)
      exact pow_eq_zero_iff (n := 2) (by omega) |>.mp this
    · intro h
      refine le_of_eq (Finset.sum_eq_zero fun c _ => ?_)
      rw [h c]
      ring
  · intro h T emb t
    unfold cls_seg conv1x1 divByNorm
    refine Finset.sum_eq_zero fun c _ => ?_
    rw [h c]
    simp

/-- C1 (code bug): with one sample and 5 text categories, the top-k
branch of `refine_output` raises `IndexError` for every embedding table,
class token and logit map: the expanded `selected_cls` integer tensor is
used to index dimension 0 (the batch dimension) of `zeros` and `output`,
and the two selected category indices are distinct, so at most one of
them is 0 and the other is out of range for a batch of size 1. -/
theorem topk_gate_batch_indexing_crashes {Cc P : ℕ} (emb : Fin 5 → Fin Cc → ℝ)
    (tok : Fin 1 → Fin Cc → ℝ) (out : Fin 1 → Fin 5 → Fin P → ℝ) :
    topkGate 2 emb tok out = none := by
  have hl5 : List.finRange 5 ≠ [] := by
    intro hnil
    have := congrArg List.length hnil
    rw [List.length_finRange] at this
    simp at this
  obtain ⟨a, ha⟩ := argmaxList_isSome (clsPred emb tok 0) _ hl5
  have hamem : a ∈ List.finRange 5 := argmaxList_mem _ ha
  have hl4 : (List.finRange 5).erase a ≠ [] := by
    intro hnil
    have := congrArg List.length hnil
    rw [List.length_erase_of_mem hamem, List.length_finRange] at this
    simp at this
  obtain ⟨b, hb⟩ := argmaxList_isSome (clsPred emb tok 0) _ hl4
  have hbmem : b ∈ (List.finRange 5).erase a := argmaxList_mem _ hb
  have hba : b ≠ a := (((List.nodup_finRange 5).mem_erase_iff).mp hbmem).1
  have e1 : topkAux (clsPred emb tok 0) 2 (List.finRange 5)
      = a :: topkAux (clsPred emb tok 0) 1 ((List.finRange 5).erase a) :=
    topkAux_succ _ 1 _ ha
  have e2 : topkAux (clsPred emb tok 0) 1 ((List.finRange 5).erase a)
      = b :: topkAux (clsPred emb tok 0) 0
          (((List.finRange 5).erase a).erase b) :=
    topkAux_succ _ 0 _ hb
  have htk : topkIdx 2 (clsPred emb tok 0) = [a, b] := by
    rw [topkIdx, e1, e2]
    rfl
  have hmem : ∀ v : Fin 5, v ∈ topkIdx 2 (clsPred emb tok 0) →
      (v : ℕ) ∈ selectedIdx 2 emb tok := by
    intro v hv
    rw [selectedIdx]
    simp only [List.mem_flatten, List.mem_map]
    exact ⟨(topkIdx 2 (clsPred emb tok 0)).map Fin.val,
      ⟨(0 : Fin 1), List.mem_finRange _, rfl⟩, List.mem_map_of_mem _ hv⟩
  rw [topkGate]
  refine if_neg fun hall => ?_
  have haval := hall (a : ℕ) (hmem a (by simp [htk]))
  have hbval := hall (b : ℕ) (hmem b (by simp [htk]))
  exact hba (Fin.ext (by omega))

/-- C4: in an evaluation-mode pass with the gating and voting stages
disabled and `text_categories = num_classes + 2`, the refined output has
`1 + num_classes` channels, and its channel 0 equals, at every pixel, the
maximum of the two surplus-category logits. -/
theorem bg_synthesis_from_surplus_categories {N P Cc Ck nc : ℕ} [NeZero P]
    (bg : ℝ) (vt : List ℝ) (emb : Fin (nc + 2) → Fin Cc → ℝ)
    (out : Fin N → Fin (nc + 2) → Fin P → ℝ)
    (k : Option (Fin N → Fin P → Fin Ck → ℝ))
    (tok : Option (Fin N → Fin Cc → ℝ)) :
    ∃ d : Fin N → Fin (1 + nc) → Fin P → ℝ,
      refine_output nc bg 0 vt 0 0 emb out k tok = some ⟨1 + nc, d⟩ ∧
      ∀ (n : Fin N) (p : Fin P),
        d n ⟨0, by omega⟩ p
          = max (out n ⟨nc, by omega⟩ p) (out n ⟨nc + 1, by omega⟩ p) := by
  have hg : gateStage 0 0 emb tok out = some out := by
    simp [gateStage]
  have hv : voteStage 0 vt k out = some out := by
    cases k <;> rfl
  have hnc : nc < nc + 2 := by omega
  have hro : refine_output nc bg 0 vt 0 0 emb out k tok
      = some (bgStage nc bg (k.isSome && !(0 == 0)) out) := by
    simp only [refine_output, hg, hv]
  have hbg : bgStage nc bg (k.isSome && !(0 == 0)) out
      = ⟨1 + nc, bgConcat nc hnc out⟩ := by
    rw [bgStage, dif_pos hnc]
  refine ⟨bgConcat nc hnc out, by rw [hro, hbg], fun n p => ?_⟩
  have h0 : bgConcat nc hnc out n ⟨0, by omega⟩ p = maxExtra nc hnc out n p := by
    simp [bgConcat]
  rw [h0, maxExtra]
  have hfs : (Finset.univ.filter fun c : Fin (nc + 2) => nc ≤ (c : ℕ))
      = ({⟨nc, by omega⟩, ⟨nc + 1, by omega⟩} : Finset (Fin (nc + 2))) := by
    ext c
    have hc := c.isLt
    simp only [Finset.mem_filter, Finset.mem_univ, true_and,
      Finset.mem_insert, Finset.mem_singleton, Fin.ext_iff]
    omega
  rw [Finset.sup'_congr _ hfs fun x _ => rfl]
  rw [Finset.sup'_insert, Finset.sup'_singleton]

theorem bg_synthesis_from_surplus_categories_witness :
    ∃ d : Fin 1 → Fin (1 + 1) → Fin 1 → ℝ,
      refine_output 1 0 0 [] 0 0 exEmb3 exOut3
          (none : Option (Fin 1 → Fin 1 → Fin 1 → ℝ)) none = some ⟨1 + 1, d⟩ ∧
      ∀ (n : Fin 1) (p : Fin 1),
        d n ⟨0, by omega⟩ p
          = max (exOut3 n ⟨1, by omega⟩ p) (exOut3 n ⟨2, by omega⟩ p) :=
  bg_synthesis_from_surplus_categories 0 [] exEmb3 exOut3 none none

theorem sharpSoftmax_pos {N C P : ℕ} [NeZero C]
    (out : Fin N → Fin C → Fin P → ℝ) (n : Fin N) (c : Fin C) (p : Fin P) :
    0 < sharpSoftmax out n c p :=
  div_pos (Real.exp_pos _) (Finset.sum_pos (fun _ _ => Real.exp_pos _) finUnivNE)

theorem maxClass_sharpSoftmax_pos {N C P : ℕ} [NeZero C]
    (out : Fin N → Fin C → Fin P → ℝ) (n : Fin N) (p : Fin P) :
    0 < maxClass (fun n p c => sharpSoftmax out n c p) n p := by
  have c0 : Fin C := ⟨0, Nat.pos_of_ne_zero (NeZero.ne C)⟩
  have h1 : (0 : ℝ) < sharpSoftmax out n c0 p := sharpSoftmax_pos out n c0 p
  have h2 : sharpSoftmax out n c0 p
      ≤ maxClass (fun n p c => sharpSoftmax out n c p) n p := by
    rw [maxClass]
    exact Finset.le_sup' (fun c => sharpSoftmax out n c p) (Finset.mem_univ c0)
  exact lt_of_lt_of_le h1 h2

theorem voteLoop_no_update {N P C : ℕ} [NeZero C]
    (attn : Fin N → Fin P → Fin P → ℝ) (vt : List ℝ)
    (o : Fin N → Fin P → Fin C → ℝ) (hpos : ∀ n p, 0 < maxClass o n p) :
    ∀ is : List ℕ, (∀ i ∈ is, ∃ t, vt[i]? = some t ∧ t ≤ 0) →
      voteLoop attn vt is o = some o := by
  intro is
  induction is with
  | nil => intro _; rfl
  | cons i is ih =>
    intro hvt
    obtain ⟨t, hget, ht⟩ := hvt i (List.mem_cons_self i is)
    have hne : vt.isEmpty = false := by
      cases vt with
      | nil => simp at hget
      | cons x xs => rfl
    have hstep : voteStepMasked attn t o = o := by
      funext n p c
      simp only [voteStepMasked]
      rw [if_neg (not_lt.mpr (ht.trans (hpos n p).le))]
    simp only [voteLoop, hne, hget, Bool.false_eq_true, if_false]
    rw [hstep]
    exact ih fun j hj => hvt j (List.mem_cons_of_mem i hj)

/-- C10: with the default scalar `vote_thresh = 0` expanded by the
constructor, a key tensor available and `num_vote > 0`, every voting
iteration takes the masked partial-update branch and overwrites no pixel
(each pixel's maximum sharpened-softmax confidence is strictly positive),
so the voting stage only replaces the logits by their sharpened-softmax
distribution; the constructor expansion of a scalar has length
`num_vote`, so the unconditional-overwrite branch (which needs an empty
`vote_thresh`) is reachable only from an explicitly empty list. -/
theorem default_vote_thresh_propagation_free {N C P Ck : ℕ} [NeZero C]
    (nv : ℕ) (hnv : 0 < nv) (kt : Fin N → Fin P → Fin Ck → ℝ)
    (out : Fin N → Fin C → Fin P → ℝ) :
    voteStage nv (expandVoteThresh (Sum.inl 0) nv) (some kt) out
        = some (sharpSoftmax out) ∧
    (∀ x : ℝ, expandVoteThresh (Sum.inl x) nv = List.replicate nv x ∧
      expandVoteThresh (Sum.inl x) nv ≠ []) ∧
    (∀ l : List ℝ, expandVoteThresh (Sum.inr l) nv = l) := by
  refine ⟨?_, fun x => ⟨rfl, ?_⟩, fun l => rfl⟩
  · have hvt : ∀ i ∈ List.range nv,
        ∃ t, (expandVoteThresh (Sum.inl (0 : ℝ)) nv)[i]? = some t ∧ t ≤ 0 := by
      intro i hi
      have hi' : i < nv := List.mem_range.mp hi
      exact ⟨0, by simp [expandVoteThresh, List.getElem?_replicate, hi'],
        le_refl 0⟩
    have hloop := voteLoop_no_update (affinity kt)
      (expandVoteThresh (Sum.inl 0) nv) (fun n p c => sharpSoftmax out n c p)
      (fun n p => maxClass_sharpSoftmax_pos out n p) (List.range nv) hvt
    simp only [voteStage]
    rw [if_neg (by omega : ¬nv = 0), hloop]
  · intro h
    have := congrArg List.length h
    simp [expandVoteThresh] at this
    omega

theorem default_vote_thresh_propagation_free_witness :
    voteStage 1 (expandVoteThresh (Sum.inl 0) 1) (some exKey) exOut
        = some (sharpSoftmax exOut) ∧
    (∀ x : ℝ, expandVoteThresh (Sum.inl x) 1 = List.replicate 1 x ∧
      expandVoteThresh (Sum.inl x) 1 ≠ []) ∧
    (∀ l : List ℝ, expandVoteThresh (Sum.inr l) 1 = l) :=
  default_vote_thresh_propagation_free 1 Nat.one_pos exKey exOut

end MaskClip
